import Mathlib

/-!
Shallow embedding of the destructuring-assignment utility in
src/include/assign.h.

The C++ facility binds a pack of variables by reference (class
assign_helper, factory assign) and assigns to them from a tuple-like
value.  The embedding models:

* variables as locations in a store mapping every location to a value
  of a small heterogeneous universe (Ty / Val);
* a candidate source type together with one of its values as a
  SrcView: a reported element count (std::tuple_size, absent when the
  type reports none) and a positional accessor (std::get together with
  std::tuple_element, absent at every index where the access is
  ill-formed);
* the compile-time gates of operator= as boolean predicates, split
  exactly as the code splits them: the template constraint
  (constraintOk, covering the tuple_like concept, the arity equation
  and the validity of the inner requires-expression) and the
  well-formedness of the instantiated body (bodyOk, one legal element
  assignment per index);
* the effect assign_impl as a sequence of store updates in index
  order, and operator= as opAssign, which yields a result exactly for
  the calls a compiling program can contain.

Note on the inner requires-expression of operator= (lines 31 to 35 of
the header): a simple requirement inside a requires-expression checks
that the expression is well-formed, not that it evaluates to true; the
fold over the concept assignable_from is a valid bool expression
whenever std::tuple_element_t exists at each index, whatever the truth
value of the conjuncts.  The constraint therefore only demands that
every element type exists (elemsPresent below); the truth of the
per-element assignability is first needed when the body of assign_impl
is instantiated (bodyOk below).
-/

/-- Element types of the embedded heterogeneous value universe. -/
inductive Ty where
  | int
  | str
  deriving DecidableEq, Repr

/-- Runtime values of the embedded universe. -/
inductive Val where
  | vint (n : Int)
  | vstr (s : String)
  deriving DecidableEq, Repr

/-- Static type of a value. -/
def Val.ty : Val → Ty
  | .vint _ => .int
  | .vstr _ => .str

/-- Translation of the concept assignable_from, that is
std::assignable_from of Var& from the element type: inside the embedded
universe an assignment expression is well-formed exactly between equal
element types. -/
def assignable_from (var src : Ty) : Bool := decide (var = src)

/-- Location of a bound variable: the identity of caller storage. -/
abbrev Loc := Nat

/-- Program store: the value currently held at every variable location. -/
abbrev Store := Loc → Val

/-- Write one value at one location of the store. -/
def updateStore (σ : Store) (l : Loc) (v : Val) : Store :=
  fun m => if m = l then v else σ m

/-- A fixed all-integer store used as a concrete initial state. -/
def store0 : Store := fun _ => Val.vint 0

/-- View of a candidate source type and one of its values: the reported
element count when std::tuple_size is available, and for every index
the element obtained by positional access when that access is
well-formed at the index. -/
structure SrcView where
  size : Option Nat
  elem : Nat → Option Val

/-- View of a genuine fixed-size tuple value with the given elements. -/
def tupleView (xs : List Val) : SrcView :=
  ⟨some xs.length, fun i => xs[i]?⟩

/-- Translation of the concept tuple_like: std::tuple_size is available
and std::get at index 0 is well-formed. -/
def tuple_like (t : SrcView) : Bool :=
  t.size.isSome && (t.elem 0).isSome

/-- One bound variable: its storage location and its declared type. -/
structure Binding where
  loc : Loc
  ty : Ty
  deriving DecidableEq, Repr

/-- Translation of class assign_helper: it stores references to the
bound variables (a std::tuple of references, here the ordered list of
their locations and declared types). -/
structure assign_helper where
  refs : List Binding
  deriving DecidableEq, Repr

/-- Translation of the factory function assign. -/
def assign (vars : List Binding) : assign_helper := ⟨vars⟩

theorem assign_refs (vars : List Binding) : (assign vars).refs = vars := rfl

/-- Validity of the inner requires-expression of operator= from index i
on: std::tuple_element_t must exist at one index per bound variable. -/
def elemsPresent : List Binding → Nat → SrcView → Bool
  | [], _, _ => true
  | _ :: bs, i, t => (t.elem i).isSome && elemsPresent bs (i + 1) t

/-- Well-formedness of one element assignment of the body: the element
must exist and be legally assignable to the declared variable type. -/
def elemOk (b : Binding) (o : Option Val) : Bool :=
  match o with
  | some v => assignable_from b.ty v.ty
  | none => false

/-- Well-formedness of the instantiated body of assign_impl from index
i on: each element assignment must be legal. -/
def elemsAssignable : List Binding → Nat → SrcView → Bool
  | [], _, _ => true
  | b :: bs, i, t => elemOk b (t.elem i) && elemsAssignable bs (i + 1) t

/-- The template constraint of operator=: the type satisfies
tuple_like, the arity equation holds, and the inner
requires-expression is valid. -/
def constraintOk (refs : List Binding) (t : SrcView) : Bool :=
  tuple_like t && decide (t.size = some refs.length) && elemsPresent refs 0 t

/-- The body gate: instantiating assign_impl must be well-formed. -/
def bodyOk (refs : List Binding) (t : SrcView) : Bool :=
  elemsAssignable refs 0 t

/-- A call of operator= compiles exactly when its constraint is
satisfied and the instantiated body is well-formed. -/
def compilesOk (refs : List Binding) (t : SrcView) : Bool :=
  constraintOk refs t && bodyOk refs t

/-- Effect of one element assignment on the store (no effect stands for
an ill-formed access, which the gates exclude). -/
def writeElem (σ : Store) (l : Loc) (o : Option Val) : Store :=
  match o with
  | some v => updateStore σ l v
  | none => σ

/-- Translation of assign_impl: the fold expression assigns element i
of the tuple to bound variable i, for i = 0 to N - 1 in this order. -/
def assign_impl : List Binding → Nat → SrcView → Store → Store
  | [], _, _, σ => σ
  | b :: bs, i, t, σ => assign_impl bs (i + 1) t (writeElem σ b.loc (t.elem i))

/-- Translation of operator=: defined, with its effect on the store and
the returned reference to the assigner itself, exactly on the calls the
surrounding program can contain, that is those that compile. -/
def opAssign (h : assign_helper) (t : SrcView) (σ : Store) :
    Option (assign_helper × Store) :=
  if compilesOk h.refs t then some (h, assign_impl h.refs 0 t σ) else none

/-- The writes contributed at one index. -/
def elemWrites (l : Loc) (o : Option Val) : List (Loc × Val) :=
  match o with
  | some v => [(l, v)]
  | none => []

/-- The sequence of single-location writes the fold of assign_impl
performs, in the order it performs them. -/
def writeSeq : List Binding → Nat → SrcView → List (Loc × Val)
  | [], _, _ => []
  | b :: bs, i, t => elemWrites b.loc (t.elem i) ++ writeSeq bs (i + 1) t

/-- Apply a sequence of writes to the store, first entry first. -/
def applyWrites (ws : List (Loc × Val)) (σ : Store) : Store :=
  ws.foldl (fun σ p => updateStore σ p.1 p.2) σ

theorem tupleView_size (xs : List Val) : (tupleView xs).size = some xs.length := rfl

theorem tupleView_elem (xs : List Val) (i : Nat) : (tupleView xs).elem i = xs[i]? := rfl

/-- Locations outside the binding set are untouched by assign_impl. -/
theorem assign_impl_not_mem (bs : List Binding) :
    ∀ (i : Nat) (t : SrcView) (σ : Store) (l : Loc),
      l ∉ bs.map Binding.loc → assign_impl bs i t σ l = σ l := by
  induction bs with
  | nil => intro i t σ l _; rfl
  | cons b bs ih =>
    intro i t σ l hl
    simp only [List.map_cons, List.mem_cons] at hl
    push_neg at hl
    simp only [assign_impl]
    rw [ih (i + 1) t _ l hl.2]
    cases h : t.elem i with
    | none => simp [writeElem]
    | some v => simp [writeElem, updateStore, hl.1]

/-- Under the body gate, every index below the arity has an element and
the element is assignable to the declared type of its variable. -/
theorem elemsAssignable_idx (bs : List Binding) :
    ∀ (i j : Nat) (t : SrcView) (b : Binding),
      elemsAssignable bs i t = true → bs[j]? = some b →
      ∃ v, t.elem (i + j) = some v ∧ assignable_from b.ty v.ty = true := by
  induction bs with
  | nil => intro i j t b _ hj; simp at hj
  | cons b0 bs ih =>
    intro i j t b hok hj
    simp only [elemsAssignable, Bool.and_eq_true] at hok
    obtain ⟨h1, h2⟩ := hok
    cases j with
    | zero =>
      simp only [List.getElem?_cons_zero, Option.some_inj] at hj
      subst hj
      cases h : t.elem i with
      | none => rw [h] at h1; simp [elemOk] at h1
      | some v =>
        rw [h] at h1
        simp only [elemOk] at h1
        exact ⟨v, by simpa using h, h1⟩
    | succ j =>
      obtain ⟨v, hv, ha⟩ := ih (i + 1) j t b h2 (by simpa using hj)
      refine ⟨v, ?_, ha⟩
      rw [show i + (j + 1) = i + 1 + j by omega]
      exact hv

/-- Under the constraint, every index below the arity has an element. -/
theorem elemsPresent_idx (bs : List Binding) :
    ∀ (i j : Nat) (t : SrcView),
      elemsPresent bs i t = true → j < bs.length → (t.elem (i + j)).isSome := by
  induction bs with
  | nil => intro i j t _ hj; simp at hj
  | cons b0 bs ih =>
    intro i j t hok hj
    simp only [elemsPresent, Bool.and_eq_true] at hok
    cases j with
    | zero => simpa using hok.1
    | succ j =>
      have hlen : j < bs.length := by simp at hj; omega
      have := ih (i + 1) j t hok.2 hlen
      rw [show i + (j + 1) = i + 1 + j by omega]
      exact this

/-- With pairwise distinct bound locations, the store produced by
assign_impl holds, at the location of the variable with index j, the
element of the source at index j, whatever the initial store held. -/
theorem assign_impl_idx (bs : List Binding) :
    ∀ (i j : Nat) (t : SrcView) (σ : Store) (b : Binding) (v : Val),
      (bs.map Binding.loc).Nodup → bs[j]? = some b → t.elem (i + j) = some v →
      assign_impl bs i t σ b.loc = v := by
  induction bs with
  | nil => intro i j t σ b v _ hj _; simp at hj
  | cons b0 bs ih =>
    intro i j t σ b v hnd hj hv
    simp only [List.map_cons, List.nodup_cons] at hnd
    cases j with
    | zero =>
      simp only [List.getElem?_cons_zero, Option.some_inj] at hj
      subst hj
      simp only [Nat.add_zero] at hv
      simp only [assign_impl, hv, writeElem]
      rw [assign_impl_not_mem bs (i + 1) t _ b0.loc hnd.1]
      simp [updateStore]
    | succ j =>
      simp only [assign_impl]
      apply ih (i + 1) j t _ b v hnd.2 (by simpa using hj)
      rw [show i + 1 + j = i + (j + 1) by omega]
      exact hv

/-- Inversion of a successful operator= call: the returned handle is
the assigner itself, the store is the one assign_impl produces, and
the call compiles. -/
theorem opAssign_some_inv (h : assign_helper) (t : SrcView) (σ : Store)
    (h' : assign_helper) (σ' : Store)
    (hok : opAssign h t σ = some (h', σ')) :
    h' = h ∧ σ' = assign_impl h.refs 0 t σ ∧ compilesOk h.refs t = true := by
  unfold opAssign at hok
  split at hok
  · rename_i hc
    simp only [Option.some_inj, Prod.mk.injEq] at hok
    exact ⟨hok.1.symm, hok.2.symm, hc⟩
  · simp at hok

/-- A call that does not compile never appears in a built program. -/
theorem opAssign_none (h : assign_helper) (t : SrcView) (σ : Store)
    (hc : compilesOk h.refs t = false) : opAssign h t σ = none := by
  simp [opAssign, hc]

/-- The constraint of a compiling call pins the reported count. -/
theorem compilesOk_size (refs : List Binding) (t : SrcView)
    (hc : compilesOk refs t = true) : t.size = some refs.length := by
  simp only [compilesOk, constraintOk, Bool.and_eq_true, decide_eq_true_eq] at hc
  tauto

/-- The constraint of a compiling call makes every element present. -/
theorem compilesOk_present (refs : List Binding) (t : SrcView)
    (hc : compilesOk refs t = true) : elemsPresent refs 0 t = true := by
  simp only [compilesOk, constraintOk, Bool.and_eq_true] at hc
  tauto

/-- The body gate of a compiling call. -/
theorem compilesOk_body (refs : List Binding) (t : SrcView)
    (hc : compilesOk refs t = true) : elemsAssignable refs 0 t = true := by
  simp only [compilesOk, bodyOk, Bool.and_eq_true] at hc
  tauto

/-- assign_impl performs exactly the writes of writeSeq, first to last. -/
theorem assign_impl_eq_applyWrites (bs : List Binding) :
    ∀ (i : Nat) (t : SrcView) (σ : Store),
      assign_impl bs i t σ = applyWrites (writeSeq bs i t) σ := by
  induction bs with
  | nil => intro i t σ; rfl
  | cons b bs ih =>
    intro i t σ
    cases h : t.elem i with
    | none =>
      simp only [assign_impl, writeSeq, h, writeElem, elemWrites, List.nil_append]
      exact ih (i + 1) t σ
    | some v =>
      simp only [assign_impl, writeSeq, h, writeElem, elemWrites,
        List.singleton_append]
      rw [ih (i + 1) t (updateStore σ b.loc v)]
      simp [applyWrites]

/-- Under the constraint, the write sequence has one entry per bound
variable. -/
theorem writeSeq_length (bs : List Binding) :
    ∀ (i : Nat) (t : SrcView), elemsPresent bs i t = true →
      (writeSeq bs i t).length = bs.length := by
  induction bs with
  | nil => intro i t _; rfl
  | cons b bs ih =>
    intro i t hp
    simp only [elemsPresent, Bool.and_eq_true] at hp
    obtain ⟨hp1, hp2⟩ := hp
    cases h : t.elem i with
    | none => rw [h] at hp1; simp at hp1
    | some v =>
      simp only [writeSeq, h, elemWrites, List.singleton_append, List.length_cons]
      rw [ih (i + 1) t hp2]

/-- Under the constraint, the entry of the write sequence at index j is
the write of source element j at the location of variable j. -/
theorem writeSeq_idx (bs : List Binding) :
    ∀ (i j : Nat) (t : SrcView) (b : Binding) (v : Val),
      elemsPresent bs i t = true → bs[j]? = some b → t.elem (i + j) = some v →
      (writeSeq bs i t)[j]? = some (b.loc, v) := by
  induction bs with
  | nil => intro i j t b v _ hj _; simp at hj
  | cons b0 bs ih =>
    intro i j t b v hp hj hv
    simp only [elemsPresent, Bool.and_eq_true] at hp
    obtain ⟨hp1, hp2⟩ := hp
    cases h : t.elem i with
    | none => rw [h] at hp1; simp at hp1
    | some w =>
      simp only [writeSeq, h, elemWrites, List.singleton_append]
      cases j with
      | zero =>
        simp only [Nat.add_zero] at hv
        rw [h] at hv
        injection hv with hv
        subst hv
        simp only [List.getElem?_cons_zero, Option.some_inj] at hj
        subst hj
        simp
      | succ j =>
        simp only [List.getElem?_cons_succ]
        apply ih (i + 1) j t b v hp2 (by simpa using hj)
        rw [show i + 1 + j = i + (j + 1) by omega]
        exact hv

/-- Claim C1: on a compiling assignment from a tuple of values, the
binding set and the tuple have the same length and every bound variable
ends holding exactly the element of the tuple at its own index, so the
pairing is purely positional and no bound variable is skipped.  The
Nodup hypothesis expresses that the bound variables are distinct
variables, that is distinct storage locations. -/
theorem assign_positional_correct (refs : List Binding) (xs : List Val)
    (σ : Store) (h' : assign_helper) (σ' : Store)
    (hnd : (refs.map Binding.loc).Nodup)
    (hok : opAssign (assign refs) (tupleView xs) σ = some (h', σ')) :
    refs.length = xs.length ∧
      ∀ (j : Nat) (b : Binding) (v : Val), refs[j]? = some b → xs[j]? = some v → σ' b.loc = v := by
  obtain ⟨hh, hσ, hc⟩ := opAssign_some_inv _ _ _ _ _ hok
  rw [assign_refs] at hσ hc
  have hlen : refs.length = xs.length := by
    have := compilesOk_size refs (tupleView xs) hc
    rw [tupleView_size] at this
    exact (Option.some_inj.mp this).symm
  refine ⟨hlen, ?_⟩
  intro j b v hj hv
  rw [hσ]
  apply assign_impl_idx refs 0 j (tupleView xs) σ b v hnd hj
  rw [tupleView_elem, Nat.zero_add]
  exact hv

theorem assign_positional_correct_witness :
    assign_impl [⟨0, Ty.int⟩, ⟨1, Ty.str⟩] 0
      (tupleView [Val.vint 42, Val.vstr "hello"]) store0 1 = Val.vstr "hello" := by
  have h := assign_positional_correct [⟨0, Ty.int⟩, ⟨1, Ty.str⟩]
    [Val.vint 42, Val.vstr "hello"] store0
    (assign [⟨0, Ty.int⟩, ⟨1, Ty.str⟩])
    (assign_impl [⟨0, Ty.int⟩, ⟨1, Ty.str⟩] 0
      (tupleView [Val.vint 42, Val.vstr "hello"]) store0)
    (by decide) rfl
  exact h.2 1 ⟨1, Ty.str⟩ (Val.vstr "hello") rfl rfl

/-- Claim C2, recording the code bug: with one bound int variable and a
one-element tuple holding a string, the template constraint of
operator= is still satisfied although the element is not assignable, so
the operation is not excluded from the compile-time candidate set; the
build nevertheless fails, at the instantiation of the body of
assign_impl (bodyOk is false), so no program containing the call is
built and no assignment, partial or complete, is observable. -/
theorem element_mismatch_candidate_not_excluded :
    constraintOk [⟨0, Ty.int⟩] (tupleView [Val.vstr "x"]) = true ∧
    assignable_from Ty.int (Val.vstr "x").ty = false ∧
    bodyOk [⟨0, Ty.int⟩] (tupleView [Val.vstr "x"]) = false ∧
    ∀ σ : Store, opAssign (assign [⟨0, Ty.int⟩]) (tupleView [Val.vstr "x"]) σ = none := by
  refine ⟨by decide, by decide, by decide, ?_⟩
  intro σ
  apply opAssign_none
  rw [assign_refs]
  decide

/-- Claim C3: a reported element count different from the arity of the
binding set makes the call not compile, so the assignment is never
attempted and no store effect of it is observable in any program that
builds. -/
theorem arity_mismatch_rejected (refs : List Binding) (t : SrcView)
    (σ : Store) (M : Nat) (hM : t.size = some M) (hne : M ≠ refs.length) :
    opAssign (assign refs) t σ = none := by
  apply opAssign_none
  rw [assign_refs]
  have hd : decide (t.size = some refs.length) = false := by
    simp [hM, hne]
  simp [compilesOk, constraintOk, hd]

theorem arity_mismatch_rejected_witness :
    opAssign (assign [⟨0, Ty.int⟩]) (tupleView [Val.vint 1, Val.vint 2]) store0 =
      none :=
  arity_mismatch_rejected [⟨0, Ty.int⟩] (tupleView [Val.vint 1, Val.vint 2])
    store0 2 rfl (by decide)

/-- Claim C4: every compiling assignment performs exactly the writes of
writeSeq, applied first entry first; under the gates this sequence has
exactly one write per bound variable and its entry at index j writes
source element j to the location of variable j, so the element
assignments happen in increasing index order, one per index, with no
reordering and no skipped index whatever the written values are. -/
theorem assignment_order_sequential (refs : List Binding) (t : SrcView)
    (σ : Store) (h' : assign_helper) (σ' : Store)
    (hok : opAssign (assign refs) t σ = some (h', σ')) :
    σ' = applyWrites (writeSeq refs 0 t) σ ∧
    (writeSeq refs 0 t).length = refs.length ∧
    ∀ (j : Nat) (b : Binding) (v : Val), refs[j]? = some b → t.elem j = some v →
      (writeSeq refs 0 t)[j]? = some (b.loc, v) := by
  obtain ⟨hh, hσ, hc⟩ := opAssign_some_inv _ _ _ _ _ hok
  rw [assign_refs] at hσ hc
  have hp : elemsPresent refs 0 t = true := compilesOk_present refs t hc
  refine ⟨by rw [hσ]; exact assign_impl_eq_applyWrites refs 0 t σ,
    writeSeq_length refs 0 t hp, ?_⟩
  intro j b v hj hv
  apply writeSeq_idx refs 0 j t b v hp hj
  rw [Nat.zero_add]
  exact hv

theorem assignment_order_sequential_witness :
    (writeSeq [⟨0, Ty.int⟩, ⟨1, Ty.str⟩] 0
      (tupleView [Val.vint 7, Val.vstr "w"])).length = 2 ∧
    (writeSeq [⟨0, Ty.int⟩, ⟨1, Ty.str⟩] 0
      (tupleView [Val.vint 7, Val.vstr "w"]))[1]? = some (1, Val.vstr "w") := by
  have h := assignment_order_sequential [⟨0, Ty.int⟩, ⟨1, Ty.str⟩]
    (tupleView [Val.vint 7, Val.vstr "w"]) store0
    (assign [⟨0, Ty.int⟩, ⟨1, Ty.str⟩])
    (assign_impl [⟨0, Ty.int⟩, ⟨1, Ty.str⟩] 0
      (tupleView [Val.vint 7, Val.vstr "w"]) store0) rfl
  exact ⟨h.2.1, h.2.2 1 ⟨1, Ty.str⟩ (Val.vstr "w") rfl rfl⟩

/-- Claim C5: the same assigner can be assigned from two sources in
sequence; after the second compiling assignment every bound variable
holds exactly the corresponding element of the second source.  The
first source and the initial store are universally quantified and
absent from the conclusion, so the final values of the bound variables
do not depend on them.  Distinctness of the bound variables is the
Nodup hypothesis. -/
theorem reuse_overwrites_with_latest (refs : List Binding)
    (t1 t2 : SrcView) (σ : Store) (h1 : assign_helper) (σ1 : Store)
    (h2 : assign_helper) (σ2 : Store)
    (hnd : (refs.map Binding.loc).Nodup)
    (hok1 : opAssign (assign refs) t1 σ = some (h1, σ1))
    (hok2 : opAssign h1 t2 σ1 = some (h2, σ2)) :
    ∀ (j : Nat) (b : Binding) (v : Val), refs[j]? = some b → t2.elem j = some v → σ2 b.loc = v := by
  obtain ⟨hh1, hσ1, hc1⟩ := opAssign_some_inv _ _ _ _ _ hok1
  subst hh1
  obtain ⟨hh2, hσ2, hc2⟩ := opAssign_some_inv _ _ _ _ _ hok2
  rw [assign_refs] at hσ2
  intro j b v hj hv
  rw [hσ2]
  apply assign_impl_idx refs 0 j t2 σ1 b v hnd hj
  rw [Nat.zero_add]
  exact hv

theorem reuse_overwrites_with_latest_witness :
    assign_impl [⟨0, Ty.int⟩, ⟨1, Ty.str⟩] 0
      (tupleView [Val.vint 7, Val.vstr "world"])
      (assign_impl [⟨0, Ty.int⟩, ⟨1, Ty.str⟩] 0
        (tupleView [Val.vint 42, Val.vstr "hello"]) store0) 1 =
      Val.vstr "world" := by
  have h := reuse_overwrites_with_latest [⟨0, Ty.int⟩, ⟨1, Ty.str⟩]
    (tupleView [Val.vint 42, Val.vstr "hello"])
    (tupleView [Val.vint 7, Val.vstr "world"]) store0
    (assign [⟨0, Ty.int⟩, ⟨1, Ty.str⟩])
    (assign_impl [⟨0, Ty.int⟩, ⟨1, Ty.str⟩] 0
      (tupleView [Val.vint 42, Val.vstr "hello"]) store0)
    (assign [⟨0, Ty.int⟩, ⟨1, Ty.str⟩])
    (assign_impl [⟨0, Ty.int⟩, ⟨1, Ty.str⟩] 0
      (tupleView [Val.vint 7, Val.vstr "world"])
      (assign_impl [⟨0, Ty.int⟩, ⟨1, Ty.str⟩] 0
        (tupleView [Val.vint 42, Val.vstr "hello"]) store0))
    (by decide) rfl rfl
  exact h 1 ⟨1, Ty.str⟩ (Val.vstr "world") rfl rfl

/-- Claim C6: operator= returns the assigner itself: the handle in a
successful result is the very assigner the call was made on, and a
further assignment through the returned handle is the same operation,
on the same bound locations, as one through the original assigner. -/
theorem opAssign_returns_same_handle (h : assign_helper) (t : SrcView)
    (σ : Store) (h' : assign_helper) (σ' : Store)
    (hok : opAssign h t σ = some (h', σ')) :
    h' = h ∧ ∀ (t2 : SrcView) (τ : Store), opAssign h' t2 τ = opAssign h t2 τ := by
  obtain ⟨hh, _, _⟩ := opAssign_some_inv _ _ _ _ _ hok
  exact ⟨hh, fun t2 τ => by rw [hh]⟩

theorem opAssign_returns_same_handle_witness :
    opAssign (assign [⟨0, Ty.int⟩]) (tupleView [Val.vint 7]) store0 =
      some (assign [⟨0, Ty.int⟩],
        assign_impl [⟨0, Ty.int⟩] 0 (tupleView [Val.vint 7]) store0) ∧
    assign [⟨0, Ty.int⟩] = assign [⟨0, Ty.int⟩] := by
  have h := opAssign_returns_same_handle (assign [⟨0, Ty.int⟩])
    (tupleView [Val.vint 7]) store0 (assign [⟨0, Ty.int⟩])
    (assign_impl [⟨0, Ty.int⟩] 0 (tupleView [Val.vint 7]) store0) rfl
  exact ⟨rfl, h.1⟩

/-- Claim C7: a source that misses the tuple-like contract is not
accepted: if the element count report is absent the call does not
compile, and if positional access is ill-formed at any index below the
reported count the call does not compile either, so the acceptance
check reaches every index below the count and not only index 0. -/
theorem non_tuple_like_rejected (refs : List Binding) (t : SrcView)
    (σ : Store) :
    (t.size = none → opAssign (assign refs) t σ = none) ∧
    (∀ M j, t.size = some M → j < M → t.elem j = none →
      opAssign (assign refs) t σ = none) := by
  constructor
  · intro hs
    apply opAssign_none
    rw [assign_refs]
    simp [compilesOk, constraintOk, tuple_like, hs]
  · intro M j hs hj he
    apply opAssign_none
    rw [assign_refs]
    by_cases hM : M = refs.length
    · subst hM
      cases hp : elemsPresent refs 0 t with
      | false => simp [compilesOk, constraintOk, hp]
      | true =>
        exfalso
        have := elemsPresent_idx refs 0 j t hp hj
        rw [Nat.zero_add, he] at this
        simp at this
    · have hd : decide (t.size = some refs.length) = false := by
        simp only [hs, decide_eq_false_iff_not]
        intro hcontra
        exact hM (Option.some_inj.mp hcontra)
      simp [compilesOk, constraintOk, hd]

/-- A candidate source reporting two elements whose positional access
is well-formed at index 0 only. -/
def srcBad : SrcView :=
  ⟨some 2, fun i => if i = 0 then some (Val.vint 1) else none⟩

theorem non_tuple_like_rejected_witness :
    opAssign (assign [⟨0, Ty.int⟩, ⟨1, Ty.int⟩]) srcBad store0 = none :=
  (non_tuple_like_rejected [⟨0, Ty.int⟩, ⟨1, Ty.int⟩] srcBad store0).2
    2 1 rfl (by decide) rfl

/-- Claim C8: a compiling assignment changes the store at the bound
locations only; every other location keeps its value, so the mutation
of the bound variables is the only store effect.  The source view is a
pure input of opAssign (operator= takes it by reference to const) and
no modified source appears in the result. -/
theorem frame_only_bound_locations (h : assign_helper) (t : SrcView)
    (σ : Store) (h' : assign_helper) (σ' : Store)
    (hok : opAssign h t σ = some (h', σ'))
    (l : Loc) (hl : l ∉ h.refs.map Binding.loc) :
    σ' l = σ l := by
  obtain ⟨_, hσ, _⟩ := opAssign_some_inv _ _ _ _ _ hok
  rw [hσ]
  exact assign_impl_not_mem h.refs 0 t σ l hl

theorem frame_only_bound_locations_witness :
    assign_impl [⟨0, Ty.int⟩] 0 (tupleView [Val.vint 9]) store0 5 = store0 5 :=
  frame_only_bound_locations (assign [⟨0, Ty.int⟩]) (tupleView [Val.vint 9])
    store0 (assign [⟨0, Ty.int⟩])
    (assign_impl [⟨0, Ty.int⟩] 0 (tupleView [Val.vint 9]) store0) rfl 5
    (by decide)

